import Mathlib

/-!
Verification of the ghq core (local_repository.go and vcs.go) against its
natural-language specification.  The Go code is shallowly embedded: strings are
Lean `String`s (lists of characters), the filesystem is an explicit structure
of total functions, fallible operations return `Except`, and the package-level
mutable state (the memoized root list, the lazy VCS cache of a
`LocalRepository`) is threaded explicitly.

All path manipulation helpers (`filepath.Clean`, `Join`, `Rel`, `Split`,
`SplitList`, `strings.Split`, `strings.TrimSuffix`, `strings.HasPrefix`) are
modelled for the unix separator `/` by structurally recursive functions over
`List Char`, so that every definition evaluates by kernel reduction.
-/

namespace Ghq

/-! ### Character-level string helpers (strings.Split and friends) -/

/-- Model of Go `strings.Split(s, sep)` for a single-character separator,
working on the character list.  `splitChars sep "" = [[]]` just as Go's
`Split` returns `[""]` on the empty string. -/
def splitChars (sep : Char) : List Char → List (List Char)
  | [] => [[]]
  | c :: rest =>
    let r := splitChars sep rest
    if c = sep then [] :: r
    else
      match r with
      | g :: gs => (c :: g) :: gs
      | [] => [[c]]

/-- Go `strings.Split(s, sep)` for a one-character separator. -/
def splitOnChar (sep : Char) (s : String) : List String :=
  (splitChars sep s.data).map String.mk

/-- Joins a list of strings with a separator (Go `strings.Join`). -/
def joinSep (sep : String) : List String → String
  | [] => ""
  | [x] => x
  | x :: xs => x ++ sep ++ joinSep sep xs

/-- Go `strings.HasPrefix s pre`: `s` starts with `pre`. -/
def strStartsWith (s p : String) : Bool :=
  p.data.isPrefixOf s.data

/-- Go `strings.HasSuffix s suf`: `s` ends with `suf`. -/
def strEndsWith (s p : String) : Bool :=
  p.data.isSuffixOf s.data

/-- Go `strings.TrimSuffix s suf`: removes `suf` from the end of `s` when it
is a suffix, otherwise returns `s` unchanged. -/
def trimSuffix (s suf : String) : String :=
  if strEndsWith s suf then String.mk (s.data.take (s.data.length - suf.data.length))
  else s

/-! ### filepath helpers (unix separator) -/

/-- Segment-level core of Go `filepath.Clean`: processes the `/`-separated
segments of a path with a stack, dropping empty and `.` segments, resolving
`..` against the stack (a `..` is dropped at the root of a rooted path and
accumulated at the front of a relative path).  The stack is kept reversed. -/
def cleanSegsAux (rooted : Bool) (stack : List String) : List String → List String
  | [] => stack.reverse
  | seg :: rest =>
    if seg = "" ∨ seg = "." then cleanSegsAux rooted stack rest
    else if seg = ".." then
      match stack with
      | [] => if rooted then cleanSegsAux rooted [] rest
              else cleanSegsAux rooted [".."] rest
      | top :: stk =>
        if top = ".." then cleanSegsAux rooted (".." :: top :: stk) rest
        else cleanSegsAux rooted stk rest
    else cleanSegsAux rooted (seg :: stack) rest

/-- The cleaned segment list of a path (`rooted` records a leading `/`). -/
def cleanSegs (rooted : Bool) (segs : List String) : List String :=
  cleanSegsAux rooted [] segs

/-- Go `filepath.Clean` for the unix separator. -/
def goClean (path : String) : String :=
  if path = "" then "."
  else
    let rooted := strStartsWith path "/"
    let out := cleanSegs rooted (splitOnChar '/' path)
    if rooted then "/" ++ joinSep "/" out
    else if out = [] then "." else joinSep "/" out

/-- Go `filepath.Join`: joins from the first non-empty element with `/` and
cleans the result; returns `""` when every element is empty. -/
def goJoinList : List String → String
  | [] => ""
  | e :: rest => if e = "" then goJoinList rest else goClean (joinSep "/" (e :: rest))

/-- Two-argument `filepath.Join`. -/
def goJoin2 (a b : String) : String := goJoinList [a, b]

/-- Go `filepath.IsAbs` for unix. -/
def goIsAbs (p : String) : Bool := strStartsWith p "/"

/-- Go `filepath.SplitList` for unix (`:`-separated, empty list for `""`). -/
def goSplitList (s : String) : List String :=
  if s = "" then [] else splitOnChar ':' s

/-- The prefix of a character list up to and including the last `/`
(empty when there is no `/`). -/
def lastSlashSplit : List Char → List Char
  | [] => []
  | c :: rest =>
    if rest.contains '/' then c :: lastSlashSplit rest
    else if c = '/' then [c] else []

/-- The directory part of Go `filepath.Split` (everything up to and including
the final separator). -/
def goSplitDir (s : String) : String := String.mk (lastSlashSplit s.data)

/-- Segment-level core of Go `filepath.Rel` after both paths have been
cleaned: strips the common segment prefix; fails when the first differing
base segment is `..`; otherwise prepends one `..` per remaining base segment
to the remaining target segments. -/
def relSegs : List String → List String → Option (List String)
  | [], ts => some ts
  | b :: bs, [] => if b = ".." then none else some (List.replicate (bs.length + 1) "..")
  | b :: bs, t :: ts =>
    if b = t then relSegs bs ts
    else if b = ".." then none
    else some (List.replicate (bs.length + 1) ".." ++ t :: ts)

/-- Go `filepath.Rel(basepath, targpath)` for unix, `none` modelling the
error return: cleans both paths, answers `.` when they are equal, fails when
exactly one of them is rooted, and otherwise compares cleaned segments. -/
def goRel (basepath targpath : String) : Option String :=
  let base := goClean basepath
  let targ := goClean targpath
  if targ = base then some "."
  else
    let brooted := strStartsWith base "/"
    let trooted := strStartsWith targ "/"
    if brooted != trooted then none
    else
      let bsegs := cleanSegs brooted (splitOnChar '/' basepath)
      let tsegs := cleanSegs trooted (splitOnChar '/' targpath)
      (relSegs bsegs tsegs).map
        (fun segs => if segs = [] then "." else joinSep "/" segs)

/-! ### vcs.go: the VCS backend table

Go's backends are pointers to `VCSBackend` structs holding closures over the
external process runner.  Pointer identity is modelled by the tag `VCSKind`;
the effect of `Clone`/`Update` is modelled as the plan of external actions it
would perform (`Step`), with `Except` capturing the error return, so that the
CVS dummy backend's unconditional failure performs no action. -/

/-- One backend identity per distinct `*VCSBackend` value in vcs.go. -/
inductive VCSKind
  | git | svn | gitsvn | hg | darcs | cvs | fossil | bzr
deriving DecidableEq, Repr

/-- The parts of a `net/url.URL` the core reads: `Hostname()`, `Path`, and the
serialized form `String()` (kept opaque). -/
structure GoURL where
  hostname : String
  path : String
  str : String
deriving DecidableEq, Repr

/-- An external action a backend performs: `os.MkdirAll`, `run(silent)` or
`runInDir(silent)` with the exact command line. -/
inductive Step
  | mkdirAll (dir : String) (perm : Nat)
  | runCmd (silent : Bool) (cmd : String) (args : List String)
  | runInDir (silent : Bool) (dir : String) (cmd : String) (args : List String)
deriving DecidableEq, Repr

/-- A VCS backend: `Clone` and `Update` return the plan of actions they run
(or an error), `Contents` the marker paths identifying a working copy. -/
structure VCSBackend where
  Clone : GoURL → String → Bool → Bool → Except String (List Step)
  Update : String → Bool → Except String (List Step)
  Contents : List String

def GitBackend : VCSBackend where
  Clone remote localPath shallow silent :=
    .ok [.mkdirAll (goSplitDir localPath) 0o755,
         .runCmd silent "git" (["clone"]
           ++ (if shallow then ["--depth", "1"] else [])
           ++ [remote.str, localPath])]
  Update localPath silent := .ok [.runInDir silent localPath "git" ["pull", "--ff-only"]]
  Contents := [".git"]

def SubversionBackend : VCSBackend where
  Clone remote localPath shallow silent :=
    .ok [.mkdirAll (goSplitDir localPath) 0o755,
         .runCmd silent "svn" (["checkout"]
           ++ (if shallow then ["--depth", "1"] else [])
           ++ [remote.str, localPath])]
  Update localPath silent := .ok [.runInDir silent localPath "svn" ["update"]]
  Contents := [".svn"]

/-- git-svn does not support shallow clone: the flag is ignored. -/
def GitsvnBackend : VCSBackend where
  Clone remote localPath _ignoredShallow silent :=
    .ok [.mkdirAll (goSplitDir localPath) 0o755,
         .runCmd silent "git" ["svn", "clone", remote.str, localPath]]
  Update localPath silent := .ok [.runInDir silent localPath "git" ["svn", "rebase"]]
  Contents := [".git/svn"]

/-- Mercurial does not support shallow clone: the flag is ignored. -/
def MercurialBackend : VCSBackend where
  Clone remote localPath _ignoredShallow silent :=
    .ok [.mkdirAll (goSplitDir localPath) 0o755,
         .runCmd silent "hg" ["clone", remote.str, localPath]]
  Update localPath silent := .ok [.runInDir silent localPath "hg" ["pull", "--update"]]
  Contents := [".hg"]

def DarcsBackend : VCSBackend where
  Clone remote localPath shallow silent :=
    .ok [.mkdirAll (goSplitDir localPath) 0o755,
         .runCmd silent "darcs" (["get"]
           ++ (if shallow then ["--lazy"] else [])
           ++ [remote.str, localPath])]
  Update localPath silent := .ok [.runInDir silent localPath "darcs" ["pull"]]
  Contents := ["_darcs"]

/-- The deliberate CVS dummy: clone and update always fail, performing no
action, while the markers keep CVS working copies detectable. -/
def cvsDummyBackend : VCSBackend where
  Clone _remote _localPath _ignoredShallow _silent := .error "CVS clone is not supported"
  Update _localPath _silent := .error "CVS update is not supported"
  Contents := ["CVS/Repository"]

def fossilRepoName : String := ".fossil"

def FossilBackend : VCSBackend where
  Clone remote localPath _shallow silent :=
    .ok [.mkdirAll localPath 0o755,
         .runCmd silent "fossil" ["clone", remote.str, goJoin2 localPath fossilRepoName],
         .runInDir silent localPath "fossil" ["open", fossilRepoName]]
  Update localPath silent := .ok [.runInDir silent localPath "fossil" ["update"]]
  Contents := [".fslckout", "_FOSSIL_"]

/-- Bazaar does not support shallow clone: the flag is ignored. -/
def BazaarBackend : VCSBackend where
  Clone remote localPath _ignoredShallow silent :=
    .ok [.mkdirAll (goSplitDir localPath) 0o755,
         .runCmd silent "bzr" ["branch", remote.str, localPath]]
  Update localPath silent := .ok [.runInDir silent localPath "bzr" ["pull", "--overwrite"]]
  Contents := [".bzr"]

/-- The backend a tag denotes. -/
def backendOfKind : VCSKind → VCSBackend
  | .git => GitBackend
  | .svn => SubversionBackend
  | .gitsvn => GitsvnBackend
  | .hg => MercurialBackend
  | .darcs => DarcsBackend
  | .cvs => cvsDummyBackend
  | .fossil => FossilBackend
  | .bzr => BazaarBackend

/-- The `vcsRegistry` map of vcs.go: kind names and aliases to backends. -/
def vcsRegistry : List (String × VCSKind) :=
  [("git", .git), ("github", .git),
   ("svn", .svn), ("subversion", .svn),
   ("git-svn", .gitsvn),
   ("hg", .hg), ("mercurial", .hg),
   ("darcs", .darcs),
   ("fossil", .fossil),
   ("bzr", .bzr), ("bazaar", .bzr)]

/-! ### local_repository.go: marker-based backend detection -/

/-- The `vcsContentsMap` built by `init()` with no `ghq.findVcs` override:
each marker of each backend reachable from `vcsRegistry` to that backend.
`cvsDummyBackend` is not in `vcsRegistry`, so `CVS/Repository` is absent. -/
def vcsContentsMap : String → Option VCSKind
  | ".git" => some .git
  | ".svn" => some .svn
  | ".git/svn" => some .gitsvn
  | ".hg" => some .hg
  | "_darcs" => some .darcs
  | ".fslckout" => some .fossil
  | "_FOSSIL_" => some .fossil
  | ".bzr" => some .bzr
  | _ => none

/-- The `vcsContents` marker list built by `init()`.  Go collects the map keys
(in nondeterministic map order) and sorts them by descending length with a
non-stable sort; this list is one representative of the possible outcomes.
The claim theorems quantify over every length-descending permutation. -/
def vcsContents : List String :=
  [".fslckout", ".git/svn", "_FOSSIL_", "_darcs", ".git", ".svn", ".bzr", ".hg"]

/-- `findVCSBackend` generalized over the marker list: returns the backend of
the first marker for which the existence check succeeds. -/
def findVCSBackendOn (contents : List String) (markerExists : String → Bool) : Option VCSKind :=
  match contents.find? markerExists with
  | some d => vcsContentsMap d
  | none => none

/-! ### Filesystem model -/

/-- Errors of the modelled os/filepath calls.  `nilPanic` stands for the
runtime panic Go hits when it dereferences a nil `FileInfo`. -/
inductive GoError
  | notExist | permission | nilPanic | other (msg : String)
deriving DecidableEq, Repr

def exceptIsOk : Except ε α → Bool
  | .ok _ => true
  | .error _ => false

/-- The fields of `os.FileInfo` the core reads: directory bit, symlink bit
(of the lstat-style info the walker passes) and permission bits. -/
structure FileInfo where
  isDir : Bool
  isSymlink : Bool
  mode : Nat
deriving DecidableEq, Repr

/-- An event delivered by the external `walker.Walk` traversal of one root:
either a visited entry (path plus its `FileInfo`), or a traversal error that
is routed through the error callback. -/
inductive WalkEvent
  | entry (path : String) (fi : FileInfo)
  | failure (e : GoError)
deriving DecidableEq, Repr

/-- The filesystem as the core observes it: `stat`, `filepath.EvalSymlinks`,
and the entry/error event stream `walker.Walk` produces for a root. -/
structure FS where
  stat : String → Except GoError FileInfo
  evalSymlinks : String → Except GoError String
  events : String → List WalkEvent

/-- `findVCSBackend(fpath)`: the backend of the first marker in `vcsContents`
whose `os.Stat(filepath.Join(fpath, marker))` succeeds. -/
def findVCSBackend (fs : FS) (fpath : String) : Option VCSKind :=
  findVCSBackendOn vcsContents (fun d => exceptIsOk (fs.stat (goJoin2 fpath d)))

/-! ### LocalRepository -/

/-- The `LocalRepository` struct.  `repoPath = ""` and `vcsBackend = none`
model the zero values of the two lazy cache fields. -/
structure LocalRepository where
  FullPath : String
  RelPath : String
  RootPath : String
  PathParts : List String
  repoPath : String := ""
  vcsBackend : Option VCSKind := none
deriving DecidableEq, Repr

/-- `RepoPath()`: the cached marker directory when set, else `FullPath`. -/
def RepoPath (repo : LocalRepository) : String :=
  if repo.repoPath ≠ "" then repo.repoPath else repo.FullPath

/-- The root-scanning loop of `LocalRepositoryFromFullPath`: the first root
that is a string prefix of `fullPath` and for which `filepath.Rel` succeeds,
together with the relative path.  (A successful `Rel` never returns `""`, so
Go's `relPath == ""` test is exactly the no-match case.) -/
def findRootRel (fullPath : String) : List String → Option (String × String)
  | [] => none
  | root :: rest =>
    if strStartsWith fullPath root then
      match goRel root fullPath with
      | some rel => some (root, rel)
      | none => findRootRel fullPath rest
    else findRootRel fullPath rest

/-- `LocalRepositoryFromFullPath(fullPath, backend)` over an explicit root
list.  `filepath.ToSlash` is the identity on unix, and `PathParts` splits the
relative path on the separator. -/
def LocalRepositoryFromFullPath (roots : List String) (fullPath : String)
    (backend : Option VCSKind) : Except String LocalRepository :=
  match findRootRel fullPath roots with
  | none => .error ("no local repository found for: " ++ fullPath)
  | some (root, relPath) =>
    .ok { FullPath := fullPath
          RelPath := relPath
          RootPath := root
          PathParts := splitOnChar '/' relPath
          repoPath := ""
          vcsBackend := backend }

/-! ### URL to relative path (LocalRepositoryFromURL) -/

/-- The `pathParts` slice of `LocalRepositoryFromURL`: the hostname followed
by the `/`-split segments of the URL path. -/
def urlPathParts (u : GoURL) : List String :=
  u.hostname :: splitOnChar '/' u.path

/-- The derived relative path: the joined parts with one trailing `.git`
stripped. -/
def urlRelPath (u : GoURL) : String :=
  trimSuffix (goJoinList (urlPathParts u)) ".git"

/-- Replaces the last element of a list (Go's `pathParts[len-1] = ...`). -/
def setLast (f : String → String) : List String → List String
  | [] => []
  | [x] => [f x]
  | x :: xs => x :: setLast f xs

/-- The `pathParts` slice after the independent strip of the final segment. -/
def urlPathPartsStripped (u : GoURL) : List String :=
  setLast (fun s => trimSuffix s ".git") (urlPathParts u)

/-! ### repoRootCandidates and the lazy VCS() probe -/

/-- `repoRootCandidates()`: from `Join(RootPath, PathParts[0], nonHost...)`
down to `Join(RootPath, PathParts[0], nonHost[0])`, dropping one trailing
segment per step.  (Go indexes `PathParts[0]` unconditionally; `PathParts` is
never empty for a constructed repository, so the `[]` case is unreachable.) -/
def repoRootCandidates (repo : LocalRepository) : List String :=
  match repo.PathParts with
  | [] => []
  | p0 :: nonHostParts =>
    let hostRoot := goJoin2 repo.RootPath p0
    (List.range nonHostParts.length).map
      (fun i => goJoinList (hostRoot :: nonHostParts.take (nonHostParts.length - i)))

/-- The candidate loop inside `VCS()`: the first candidate directory at which
a backend is detected, with that backend. -/
def probeCandidates (fs : FS) : List String → Option (VCSKind × String)
  | [] => none
  | dir :: rest =>
    match findVCSBackend fs dir with
    | some b => some (b, dir)
    | none => probeCandidates fs rest

/-- `VCS()`: when the backend cache is unset, probes the candidates and
caches the first hit; returns the cached backend and `RepoPath()`, together
with the (possibly updated) repository value. -/
def VCS (fs : FS) (repo : LocalRepository) : (Option VCSKind × String) × LocalRepository :=
  let repo' :=
    if repo.vcsBackend.isSome then repo
    else
      match probeCandidates fs (repoRootCandidates repo) with
      | some (b, dir) => { repo with vcsBackend := some b, repoPath := dir }
      | none => repo
  ((repo'.vcsBackend, RepoPath repo'), repo')

/-! ### The filesystem walker -/

/-- The value `walkFn` hands back to the walker: Go `nil` (keep descending)
or `filepath.SkipDir` (prune this subtree). -/
inductive WalkSignal
  | next | skipDir
deriving DecidableEq, Repr

/-- The per-entry `walkFn` closure of `walkLocalRepositories`.  Returns the
signal together with the repository passed to the callback (if any):
symlinks are resolved and re-stat'ed (failures skip the entry silently),
non-directories are skipped, then the backend detector runs and a detected
working copy is reported; the subtree is pruned unless the entry was reached
as a symlink. -/
def walkFn (roots : List String) (fs : FS) (fpath : String) (fi : FileInfo) :
    WalkSignal × Option LocalRepository :=
  let isSymlink := fi.isSymlink
  let resolved : Option FileInfo :=
    if isSymlink then
      match fs.evalSymlinks fpath with
      | .error _ => none
      | .ok realpath =>
        match fs.stat realpath with
        | .error _ => none
        | .ok fi2 => some fi2
    else some fi
  match resolved with
  | none => (.next, none)
  | some fi' =>
    if fi'.isDir = false then (.next, none)
    else
      match findVCSBackend fs fpath with
      | none => (.next, none)
      | some backend =>
        match LocalRepositoryFromFullPath roots fpath (some backend) with
        | .error _ => (.next, none)
        | .ok repo => (if isSymlink then WalkSignal.next else .skipDir, some repo)

/-- The walker error callback: permission errors are swallowed (`none`),
anything else aborts with the error. -/
def walkErrCb (e : GoError) : Option GoError :=
  if e = .permission then none else some e

/-- Processing of one root's event stream: entries go through `walkFn` (their
reported repositories are collected), traversal errors go through the error
callback and abort the walk unless swallowed. -/
def runWalkEvents (roots : List String) (fs : FS) : List WalkEvent → Except GoError (List LocalRepository)
  | [] => .ok []
  | .failure e :: rest =>
    match walkErrCb e with
    | none => runWalkEvents roots fs rest
    | some e' => .error e'
  | .entry p fi :: rest =>
    match runWalkEvents roots fs rest with
    | .error e => .error e
    | .ok repos => .ok ((walkFn roots fs p fi).2.toList ++ repos)

/-- The root loop of `walkLocalRepositories`: stat each root, skip absent
roots, abort with `os.ErrPermission` when a root has no `0444` bits (Go
dereferences a nil `FileInfo` — a panic — when stat fails for another
reason), and otherwise walk the root. -/
def walkRootsLoop (fs : FS) (allRoots : List String) : List String → Except GoError (List LocalRepository)
  | [] => .ok []
  | root :: rest =>
    match fs.stat root with
    | .error e =>
      if e = .notExist then walkRootsLoop fs allRoots rest
      else .error .nilPanic
    | .ok fi =>
      if fi.mode &&& 0o444 = 0 then .error .permission
      else
        match runWalkEvents allRoots fs (fs.events root) with
        | .error e => .error e
        | .ok repos => (walkRootsLoop fs allRoots rest).map (fun l => repos ++ l)

/-- `walkLocalRepositories` over an explicit (already resolved) root list,
returning the repositories the callback would receive. -/
def walkLocalRepositories (fs : FS) (roots : List String) : Except GoError (List LocalRepository) :=
  walkRootsLoop fs roots roots

/-- The match accumulation of `LocalRepositoryFromURL`: every callback whose
repository has the wanted `RelPath` overwrites the single result variable, so
in sequential order the last match remains. -/
def lastMatch (relPath : String) (repos : List LocalRepository) : Option LocalRepository :=
  repos.foldl (fun acc r => if r.RelPath == relPath then some r else acc) none

/-- `LocalRepositoryFromURL(remoteURL)` over an explicit filesystem and root
list: derives the relative path, walks the existing repositories for a
`RelPath` match, and otherwise synthesizes a fresh repository under the
primary (first) root.  (Go indexes `roots[0]`; an empty resolved root list
would panic.) -/
def LocalRepositoryFromURL (fs : FS) (roots : List String) (u : GoURL) :
    Except GoError LocalRepository :=
  let relPath := urlRelPath u
  match walkLocalRepositories fs roots with
  | .error e => .error e
  | .ok repos =>
    match lastMatch relPath repos with
    | some repo => .ok repo
    | none =>
      match roots.head? with
      | none => .error .nilPanic
      | some prim =>
        .ok { FullPath := goJoin2 prim relPath, RelPath := relPath,
              RootPath := prim, PathParts := urlPathPartsStripped u,
              repoPath := "", vcsBackend := none }

/-! ### Root resolution (localRepositoryRoots) -/

/-- The result of `gitconfig.PathAll("ghq.root")`: values, a not-found miss,
or a hard error. -/
inductive GitConfigResult
  | found (roots : List String)
  | notFound
  | fail (e : GoError)
deriving Repr

/-- The process environment `localRepositoryRoots` reads: `GHQ_ROOT`
(empty string when unset), the git configuration, `os.UserHomeDir`, path
existence and symlink resolution for normalization, and the working
directory `filepath.Abs` resolves against. -/
structure Env where
  ghqRootEnv : String
  ghqRootConfig : GitConfigResult
  userHomeDir : Except GoError String
  pathExists : String → Bool
  evalSymlinks : String → Except GoError String
  cwd : String

/-- Normalization of one root entry: `filepath.Clean`, then
`filepath.EvalSymlinks` when the path exists (its error aborts), then
`filepath.Abs` against the working directory when relative. -/
def normalizeRoot (env : Env) (v : String) : Except GoError String :=
  let path := goClean v
  match (if env.pathExists path then env.evalSymlinks path else .ok path) with
  | .error e => .error e
  | .ok path' => if goIsAbs path' then .ok path' else .ok (goJoin2 env.cwd path')

/-- The in-place normalization loop over `_localRepositoryRoots`: on an
error the partially rewritten slice is what remains in the package-level
variable. -/
def normalizeRootsLoop (env : Env) (acc : List String) :
    List String → Except GoError (List String) × List String
  | [] => (.ok acc, acc)
  | v :: rest =>
    match normalizeRoot env v with
    | .error e => (.error e, acc ++ v :: rest)
    | .ok p => normalizeRootsLoop env (acc ++ [p]) rest

/-- `mapExcept f l`: all results of `f`, or the first error. -/
def mapExcept (f : String → Except GoError String) : List String → Except GoError (List String)
  | [] => .ok []
  | x :: xs =>
    match f x with
    | .error e => .error e
    | .ok y => (mapExcept f xs).map (fun l => y :: l)

/-- The pre-default root list: `GHQ_ROOT` split as a path list when
non-empty, otherwise the `ghq.root` configuration values (an empty list on a
not-found miss, the error otherwise). -/
def rootsSource (env : Env) : Except GoError (List String) :=
  if env.ghqRootEnv ≠ "" then .ok (goSplitList env.ghqRootEnv)
  else
    match env.ghqRootConfig with
    | .found l => .ok l
    | .notFound => .ok []
    | .fail e => .error e

/-- The fallback to the single default root `<home>/.ghq` when the list is
still empty. -/
def rootsWithDefault (env : Env) (l0 : List String) : Except GoError (List String) :=
  if l0.isEmpty then env.userHomeDir.map (fun h => [goJoin2 h ".ghq"]) else .ok l0

/-- `localRepositoryRoots()` with the package-level memo threaded as `cache`
(the value of `_localRepositoryRoots`); returns the result and the new memo:
a non-empty memo is returned as is; otherwise `GHQ_ROOT` wins when
non-empty, else the multi-valued `ghq.root` configuration, else the single
default `<home>/.ghq`; every entry is then normalized. -/
def localRepositoryRootsS (env : Env) (cache : List String) :
    Except GoError (List String) × List String :=
  if cache.isEmpty = false then (.ok cache, cache)
  else
    match rootsSource env with
    | .error e => (.error e, [])
    | .ok l0 =>
      match rootsWithDefault env l0 with
      | .error e => (.error e, l0)
      | .ok l1 => normalizeRootsLoop env [] l1

/-! ### Shared fixtures and helper lemmas -/

/-- A filesystem on which every stat fails: no markers exist anywhere. -/
def fsEmpty : FS where
  stat _ := .error .notExist
  evalSymlinks _ := .error .notExist
  events _ := []

/-- The repository of the source comment above `repoRootCandidates`. -/
def repoGhq : LocalRepository where
  FullPath := "/root/github.com/motemen/ghq"
  RelPath := "github.com/motemen/ghq"
  RootPath := "/root"
  PathParts := ["github.com", "motemen", "ghq"]

lemma probeCandidates_of_all_none (fs : FS) :
    ∀ l : List String, (∀ d ∈ l, findVCSBackend fs d = none) →
      probeCandidates fs l = none := by
  intro l
  induction l with
  | nil => intro _; rfl
  | cons d t ih =>
    intro h
    have hd := h d (List.mem_cons_self d t)
    simp only [probeCandidates, hd]
    exact ih (fun d' hd' => h d' (List.mem_cons_of_mem d hd'))

lemma probeCandidates_first (fs : FS) (d : String) (l2 : List String) (b : VCSKind)
    (hd : findVCSBackend fs d = some b) :
    ∀ l1 : List String, (∀ d' ∈ l1, findVCSBackend fs d' = none) →
      probeCandidates fs (l1 ++ d :: l2) = some (b, d) := by
  intro l1
  induction l1 with
  | nil => intro _; simp only [List.nil_append, probeCandidates, hd]
  | cons a t ih =>
    intro h
    have ha := h a (List.mem_cons_self a t)
    simp only [List.cons_append, probeCandidates, ha]
    exact ih (fun d' hd' => h d' (List.mem_cons_of_mem a hd'))

lemma VCS_fst (fs : FS) (repo : LocalRepository) :
    (VCS fs repo).1 = ((VCS fs repo).2.vcsBackend, RepoPath (VCS fs repo).2) := rfl

lemma VCS_cached (fs : FS) (repo : LocalRepository) (h : repo.vcsBackend.isSome = true) :
    VCS fs repo = ((repo.vcsBackend, RepoPath repo), repo) := by
  simp [VCS, h]

lemma lastMatch_relPath (relPath : String) :
    ∀ (repos : List LocalRepository) (acc : Option LocalRepository),
      (∀ x, acc = some x → x.RelPath = relPath) →
      ∀ repo,
        repos.foldl (fun acc r => if r.RelPath == relPath then some r else acc) acc
          = some repo →
        repo.RelPath = relPath := by
  intro repos
  induction repos with
  | nil => intro acc hacc repo h; exact hacc repo h
  | cons r rest ih =>
    intro acc hacc repo h
    simp only [List.foldl_cons] at h
    refine ih _ ?_ repo h
    intro x hx
    by_cases hr : r.RelPath == relPath
    · rw [if_pos hr] at hx
      injection hx with hx
      rw [← hx]
      exact eq_of_beq hr
    · rw [if_neg hr] at hx
      exact hacc x hx

lemma fromURL_relPath (fs : FS) (roots : List String) (u : GoURL)
    (repo : LocalRepository) (h : LocalRepositoryFromURL fs roots u = .ok repo) :
    repo.RelPath = urlRelPath u := by
  unfold LocalRepositoryFromURL at h
  rcases hw : walkLocalRepositories fs roots with e | repos
  · rw [hw] at h; simp at h
  · rw [hw] at h
    dsimp only at h
    rcases hm : lastMatch (urlRelPath u) repos with _ | found
    · rw [hm] at h
      rcases hh : roots.head? with _ | prim
      · rw [hh] at h; simp at h
      · rw [hh] at h
        injection h with h
        rw [← h]
    · rw [hm] at h
      injection h with h
      rw [← h]
      exact lastMatch_relPath (urlRelPath u) repos none (by simp) found hm

lemma trimSuffix_append (s suf : String) (h : strEndsWith s suf = true) :
    trimSuffix s suf ++ suf = s := by
  have hsuf : suf.data <:+ s.data := List.isSuffixOf_iff_suffix.mp h
  obtain ⟨t, ht⟩ := hsuf
  have hlen : s.data.length - suf.data.length = t.length := by
    rw [← ht]
    simp
  apply String.ext
  rw [String.data_append]
  simp only [trimSuffix, h, if_pos]
  show (s.data.take (s.data.length - suf.data.length)) ++ suf.data = s.data
  rw [hlen, ← ht, List.take_left]

lemma trimSuffix_of_no_suffix (s suf : String) (h : strEndsWith s suf = false) :
    trimSuffix s suf = s := by
  simp [trimSuffix, h]

lemma setLast_ne_nil (f : String → String) (y : String) (ys : List String) :
    setLast f (y :: ys) ≠ [] := by
  cases ys <;> simp [setLast]

lemma setLast_dropLast (f : String → String) :
    ∀ l : List String, (setLast f l).dropLast = l.dropLast
  | [] => rfl
  | [_] => rfl
  | x :: y :: ys => by
    have ih := setLast_dropLast f (y :: ys)
    show (x :: setLast f (y :: ys)).dropLast = (x :: y :: ys).dropLast
    rcases hset : setLast f (y :: ys) with _ | ⟨z, zs⟩
    · exact absurd hset (setLast_ne_nil f y ys)
    · rw [List.dropLast_cons₂, ← hset, ih, List.dropLast_cons₂]

lemma setLast_getLast (f : String → String) :
    ∀ l : List String, (setLast f l).getLast? = l.getLast?.map f
  | [] => rfl
  | [_] => rfl
  | x :: y :: ys => by
    have ih := setLast_getLast f (y :: ys)
    show (x :: setLast f (y :: ys)).getLast? = ((x :: y :: ys).getLast?).map f
    rcases hset : setLast f (y :: ys) with _ | ⟨z, zs⟩
    · exact absurd hset (setLast_ne_nil f y ys)
    · rw [List.getLast?_cons_cons, ← hset, ih, List.getLast?_cons_cons]

lemma splitChars_ne_nil (sep : Char) : ∀ cs : List Char, splitChars sep cs ≠ [] := by
  intro cs
  induction cs with
  | nil => simp [splitChars]
  | cons c rest ih =>
    simp only [splitChars]
    by_cases hc : c = sep
    · simp [hc]
    · rw [if_neg hc]
      rcases h : splitChars sep rest with _ | ⟨g, gs⟩
      · simp
      · simp

lemma goSplitList_ne_nil (s : String) (h : s ≠ "") : goSplitList s ≠ [] := by
  rw [goSplitList, if_neg h]
  intro hc
  have := splitChars_ne_nil ':' s.data
  rw [splitOnChar] at hc
  simp at hc
  exact this hc

lemma normalizeRootsLoop_fst (env : Env) :
    ∀ (xs acc : List String),
      (normalizeRootsLoop env acc xs).1
        = (mapExcept (normalizeRoot env) xs).map (fun l => acc ++ l) := by
  intro xs
  induction xs with
  | nil => intro acc; simp [normalizeRootsLoop, mapExcept, Except.map]
  | cons x xs ih =>
    intro acc
    simp only [normalizeRootsLoop, mapExcept]
    rcases hx : normalizeRoot env x with e | p
    · simp [Except.map]
    · rw [ih (acc ++ [p])]
      cases mapExcept (normalizeRoot env) xs <;> simp [Except.map, List.append_assoc]

lemma normalizeRootsLoop_ok (env : Env) :
    ∀ (xs acc l : List String), (normalizeRootsLoop env acc xs).1 = .ok l →
      (normalizeRootsLoop env acc xs).2 = l ∧ l.length = acc.length + xs.length := by
  intro xs
  induction xs with
  | nil =>
    intro acc l h
    simp only [normalizeRootsLoop] at h ⊢
    injection h with h
    subst h
    simp
  | cons x xs ih =>
    intro acc l h
    simp only [normalizeRootsLoop] at h ⊢
    rcases hx : normalizeRoot env x with e | p
    · rw [hx] at h
      simp at h
    · rw [hx] at h
      obtain ⟨h1, h2⟩ := ih (acc ++ [p]) l h
      refine ⟨h1, ?_⟩
      simp at h2
      simp [h2]
      omega

lemma rootsWithDefault_ok_ne_nil (env : Env) (l0 l1 : List String)
    (h : rootsWithDefault env l0 = .ok l1) : l1 ≠ [] := by
  unfold rootsWithDefault at h
  by_cases he : l0.isEmpty
  · rw [if_pos he] at h
    rcases hh : env.userHomeDir with e | home
    · rw [hh] at h; simp [Except.map] at h
    · rw [hh] at h
      simp only [Except.map] at h
      injection h with h
      rw [← h]
      simp
  · rw [if_neg he] at h
    injection h with h
    rw [← h]
    exact List.isEmpty_eq_false.mp (Bool.not_eq_true _ ▸ (by simpa using he))

lemma strStartsWith_append_slash (s : String) : strStartsWith ("/" ++ s) "/" = true := by
  simp [strStartsWith, String.data_append, List.isPrefixOf]

lemma goClean_rooted (p : String) (h : strStartsWith p "/" = true) :
    strStartsWith (goClean p) "/" = true := by
  have hne : p ≠ "" := by
    intro he
    subst he
    simp [strStartsWith, List.isPrefixOf] at h
  rw [goClean, if_neg hne]
  simp only [h, if_true]
  exact strStartsWith_append_slash _

lemma cleanSegsAux_no_dotdot :
    ∀ (l stack : List String), ".." ∉ stack → ".." ∉ cleanSegsAux true stack l := by
  intro l
  induction l with
  | nil =>
    intro stack h
    simp only [cleanSegsAux, List.mem_reverse]
    exact h
  | cons seg rest ih =>
    intro stack h
    simp only [cleanSegsAux]
    by_cases h1 : seg = "" ∨ seg = "."
    · rw [if_pos h1]
      exact ih stack h
    · rw [if_neg h1]
      by_cases h2 : seg = ".."
      · rw [if_pos h2]
        rcases stack with _ | ⟨top, stk⟩
        · dsimp only
          exact ih [] (by simp)
        · have htop : top ≠ ".." := fun he => h (List.mem_cons.mpr (Or.inl he.symm))
          dsimp only
          rw [if_neg htop]
          exact ih stk (fun hm => h (List.mem_cons_of_mem top hm))
      · rw [if_neg h2]
        refine ih (seg :: stack) ?_
        intro hm
        rcases List.mem_cons.mp hm with he | he
        · exact h2 he.symm
        · exact h he

lemma relSegs_isSome :
    ∀ (bs ts : List String), ".." ∉ bs → (relSegs bs ts).isSome = true := by
  intro bs
  induction bs with
  | nil => intro ts _; simp [relSegs]
  | cons b bs ih =>
    intro ts h
    have hb : b ≠ ".." := fun he => h (List.mem_cons.mpr (Or.inl he.symm))
    cases ts with
    | nil => simp [relSegs, hb]
    | cons t ts =>
      by_cases hbt : b = t
      · simp only [relSegs, if_pos hbt]
        exact ih ts (fun hm => h (List.mem_cons_of_mem b hm))
      · simp [relSegs, hbt, hb]

lemma goRel_isSome (base targ : String) (hroot : strStartsWith base "/" = true)
    (hpre : strStartsWith targ base = true) : (goRel base targ).isSome = true := by
  have htroot : strStartsWith targ "/" = true := by
    have h1 : ("/" : String).data <+: base.data := List.isPrefixOf_iff_prefix.mp hroot
    have h2 : base.data <+: targ.data := List.isPrefixOf_iff_prefix.mp hpre
    exact List.isPrefixOf_iff_prefix.mpr (h1.trans h2)
  by_cases heq : goClean targ = goClean base
  · simp [goRel, heq]
  · have hb := goClean_rooted base hroot
    have ht := goClean_rooted targ htroot
    have hnodot : ".." ∉ cleanSegs true (splitOnChar '/' base) :=
      cleanSegsAux_no_dotdot _ [] (by simp)
    have hsome := relSegs_isSome (cleanSegs true (splitOnChar '/' base))
      (cleanSegs true (splitOnChar '/' targ)) hnodot
    simp only [goRel, if_neg heq, hb, ht, bne_self_eq_false, Bool.false_eq_true, if_false,
      cleanSegs]
    rcases hrs : relSegs (cleanSegsAux true [] (splitOnChar '/' base))
        (cleanSegsAux true [] (splitOnChar '/' targ)) with _ | segs
    · rw [cleanSegs, cleanSegs] at hsome
      rw [hrs] at hsome
      simp at hsome
    · simp [hrs]

lemma findRootRel_of_no_root (fullPath : String) :
    ∀ roots : List String, (∀ r ∈ roots, strStartsWith fullPath r = false) →
      findRootRel fullPath roots = none := by
  intro roots
  induction roots with
  | nil => intro _; rfl
  | cons r rest ih =>
    intro h
    have hr := h r (List.mem_cons_self r rest)
    simp only [findRootRel, hr]
    exact ih (fun r' hr' => h r' (List.mem_cons_of_mem r hr'))

lemma findRootRel_isSome (fullPath : String) :
    ∀ roots : List String, (∀ r ∈ roots, strStartsWith r "/" = true) →
      (∃ r ∈ roots, strStartsWith fullPath r = true) →
      (findRootRel fullPath roots).isSome = true := by
  intro roots
  induction roots with
  | nil => intro _ hex; simp at hex
  | cons r rest ih =>
    intro habs hex
    by_cases hr : strStartsWith fullPath r = true
    · have hrel := goRel_isSome r fullPath (habs r (List.mem_cons_self r rest)) hr
      rcases hx : goRel r fullPath with _ | rel
      · rw [hx] at hrel; simp at hrel
      · simp [findRootRel, hr, hx]
    · simp only [findRootRel, hr, if_false]
      refine ih (fun r' hr' => habs r' (List.mem_cons_of_mem r hr')) ?_
      obtain ⟨r', hr', hpre⟩ := hex
      rcases List.mem_cons.mp hr' with he | he
      · exact absurd (he ▸ hpre) hr
      · exact ⟨r', he, hpre⟩

lemma findRootRel_first (fullPath r : String) (post : List String) (rel : String)
    (hr : strStartsWith fullPath r = true) (hrel : goRel r fullPath = some rel) :
    ∀ pre : List String, (∀ r' ∈ pre, strStartsWith fullPath r' = false) →
      findRootRel fullPath (pre ++ r :: post) = some (r, rel) := by
  intro pre
  induction pre with
  | nil => intro _; simp [findRootRel, hr, hrel]
  | cons a t ih =>
    intro h
    have ha := h a (List.mem_cons_self a t)
    simp only [List.cons_append, findRootRel, ha]
    exact ih (fun r' hr' => h r' (List.mem_cons_of_mem a hr'))

lemma walkRootsLoop_append (fs : FS) (allRoots : List String) :
    ∀ pre rs : List String, walkRootsLoop fs allRoots (pre ++ rs) =
      match walkRootsLoop fs allRoots pre with
      | .error e => .error e
      | .ok l => (walkRootsLoop fs allRoots rs).map (fun l2 => l ++ l2) := by
  intro pre
  induction pre with
  | nil =>
    intro rs
    simp only [List.nil_append, walkRootsLoop]
    cases walkRootsLoop fs allRoots rs <;> simp [Except.map]
  | cons r pre' ih =>
    intro rs
    simp only [List.cons_append, walkRootsLoop]
    rcases hstat : fs.stat r with e | fi
    · by_cases he : e = GoError.notExist
      · subst he
        simp only [if_pos rfl]
        exact ih rs
      · simp only [if_neg he]
    · by_cases hm : fi.mode &&& 0o444 = 0
      · simp only [if_pos hm]
      · simp only [if_neg hm]
        rcases hev : runWalkEvents allRoots fs (fs.events r) with e | repos
        · rfl
        · dsimp only
          rw [List.append_eq, ih rs]
          cases walkRootsLoop fs allRoots pre' <;>
            cases walkRootsLoop fs allRoots rs <;>
              simp [Except.map, List.append_assoc]

lemma find?_ne_git (markerExists : String → Bool) (hgitsvn : markerExists ".git/svn" = true) :
    ∀ l : List String, l.Pairwise (fun a b => b.length ≤ a.length) → ".git/svn" ∈ l →
      l.find? markerExists ≠ some ".git" := by
  intro l
  induction l with
  | nil => intro _ hm; simp at hm
  | cons a t ih =>
    intro hp hm
    by_cases ha : markerExists a = true
    · rw [List.find?_cons_of_pos t ha]
      intro heq
      have haeq : a = ".git" := by injection heq
      subst haeq
      have hmt : ".git/svn" ∈ t := by
        rcases List.mem_cons.mp hm with h | h
        · exact absurd h (by decide)
        · exact h
      have hle := (List.pairwise_cons.mp hp).1 _ hmt
      exact absurd hle (by decide)
    · rw [List.find?_cons_of_neg t ha]
      apply ih hp.of_cons
      rcases List.mem_cons.mp hm with h | h
      · exact absurd (h ▸ hgitsvn) ha
      · exact h

lemma find?_gitsvn (markerExists : String → Bool) (hgitsvn : markerExists ".git/svn" = true) :
    ∀ l : List String, l.Pairwise (fun a b => b.length ≤ a.length) → ".git/svn" ∈ l →
      (∀ d ∈ l, markerExists d = true → d = ".git" ∨ d = ".git/svn") →
      l.find? markerExists = some ".git/svn" := by
  intro l
  induction l with
  | nil => intro _ hm _; simp at hm
  | cons a t ih =>
    intro hp hm honly
    by_cases ha : markerExists a = true
    · rw [List.find?_cons_of_pos t ha]
      rcases honly a (List.mem_cons_self a t) ha with haeq | haeq
      · subst haeq
        have hmt : ".git/svn" ∈ t := by
          rcases List.mem_cons.mp hm with h | h
          · exact absurd h (by decide)
          · exact h
        have hle := (List.pairwise_cons.mp hp).1 _ hmt
        exact absurd hle (by decide)
      · rw [haeq]
    · rw [List.find?_cons_of_neg t ha]
      refine ih hp.of_cons ?_ (fun d hd => honly d (List.mem_cons_of_mem a hd))
      rcases List.mem_cons.mp hm with h | h
      · exact absurd (h ▸ hgitsvn) ha
      · exact h

/-! ### Claim theorems -/

/-- Claim C7, counterexample: a directory whose `CVS/Repository` marker
exists (here the only existing marker) is not detected at all, because
`cvsDummyBackend` is absent from `vcsRegistry` and `init()` builds the
detector's marker set from the registry alone. -/
theorem cvsDummyBackend_not_detected :
    findVCSBackendOn vcsContents (fun d => d == "CVS/Repository") = none ∧
    "CVS/Repository" ∉ vcsContents ∧
    vcsContentsMap "CVS/Repository" = none := by
  refine ⟨by decide, by decide, rfl⟩

/-- Claim C7, amended: the CVS backend's `Clone` and `Update` unconditionally
return the non-retryable "not supported" errors without planning any action,
and `Contents` still returns exactly `["CVS/Repository"]`; however the CVS
entry is not registered in `vcsRegistry`, so its marker takes no part in
backend detection. -/
theorem cvsDummyBackend_dummy (remote : GoURL) (localPath : String) (shallow silent : Bool) :
    cvsDummyBackend.Clone remote localPath shallow silent = .error "CVS clone is not supported" ∧
    cvsDummyBackend.Update localPath silent = .error "CVS update is not supported" ∧
    cvsDummyBackend.Contents = ["CVS/Repository"] ∧
    (∀ p ∈ vcsRegistry, p.2 ≠ VCSKind.cvs) :=
  ⟨rfl, rfl, rfl, by decide⟩

/-- Claim C8: for the git-svn, Mercurial and Bazaar backends, `Clone` with
`shallow = true` plans exactly the same actions (in particular the same
external command line) as with `shallow = false`, and the request succeeds
rather than being rejected. -/
theorem shallow_flag_ignored (remote : GoURL) (localPath : String) (silent shallow : Bool) :
    GitsvnBackend.Clone remote localPath shallow silent
      = GitsvnBackend.Clone remote localPath false silent ∧
    MercurialBackend.Clone remote localPath shallow silent
      = MercurialBackend.Clone remote localPath false silent ∧
    BazaarBackend.Clone remote localPath shallow silent
      = BazaarBackend.Clone remote localPath false silent ∧
    exceptIsOk (GitsvnBackend.Clone remote localPath shallow silent) = true ∧
    exceptIsOk (MercurialBackend.Clone remote localPath shallow silent) = true ∧
    exceptIsOk (BazaarBackend.Clone remote localPath shallow silent) = true :=
  ⟨rfl, rfl, rfl, rfl, rfl, rfl⟩

/-- Claim C10: for a repository whose `PathParts` is a single (host-only)
segment, `repoRootCandidates()` is empty, so `VCS()` finds no backend and
leaves the repository unchanged when the cache is unset; and with the
`repoPath` cache unset, `RepoPath()` — and hence the path `VCS()` returns —
is `FullPath`. -/
theorem singleton_pathparts_no_probe (repo : LocalRepository) (fs : FS)
    (h1 : repo.PathParts.length = 1) :
    repoRootCandidates repo = [] ∧
    (repo.vcsBackend = none → (VCS fs repo).1.1 = none ∧ (VCS fs repo).2 = repo) ∧
    (repo.repoPath = "" → RepoPath repo = repo.FullPath ∧ (VCS fs repo).1.2 = repo.FullPath) := by
  obtain ⟨p, hp⟩ : ∃ p, repo.PathParts = [p] := by
    rcases hpp : repo.PathParts with _ | ⟨p, rest⟩
    · rw [hpp] at h1; simp at h1
    · rw [hpp] at h1
      simp at h1
      subst h1
      exact ⟨p, rfl⟩
  have hcand : repoRootCandidates repo = [] := by
    simp [repoRootCandidates, hp]
  have hprobe : probeCandidates fs (repoRootCandidates repo) = none := by
    rw [hcand]; rfl
  refine ⟨hcand, ?_, ?_⟩
  · intro hb
    simp [VCS, hb, hprobe]
  · intro hrp
    have hfull : RepoPath repo = repo.FullPath := by simp [RepoPath, hrp]
    refine ⟨hfull, ?_⟩
    rcases hvb : repo.vcsBackend with _ | b
    · simp [VCS, hvb, hprobe, hfull]
    · simp [VCS, hvb, hfull]

/-- Claim C10 witness at a concrete host-only repository. -/
theorem singleton_pathparts_no_probe_witness :
    repoRootCandidates { FullPath := "/r/github.com", RelPath := "github.com",
                         RootPath := "/r", PathParts := ["github.com"] } = [] ∧
    (VCS fsEmpty { FullPath := "/r/github.com", RelPath := "github.com",
                   RootPath := "/r", PathParts := ["github.com"] }).1.1 = none := by
  have h := singleton_pathparts_no_probe
    { FullPath := "/r/github.com", RelPath := "github.com",
      RootPath := "/r", PathParts := ["github.com"] } fsEmpty (by decide)
  exact ⟨h.1, (h.2.1 rfl).1⟩

/-- Claim C4, counterexample: the candidate list stops at
`RootPath/PathParts[0]/PathParts[1]`; the host-only directory
`RootPath/PathParts[0]` (here `/root/github.com`) is not a candidate, so the
claimed "down to just the host" enumeration is false. -/
theorem repoRootCandidates_not_down_to_host :
    repoRootCandidates repoGhq = ["/root/github.com/motemen/ghq", "/root/github.com/motemen"] ∧
    goJoin2 repoGhq.RootPath "github.com" = "/root/github.com" ∧
    "/root/github.com" ∉ repoRootCandidates repoGhq := by
  refine ⟨by decide, by decide, by decide⟩

/-- Claim C4, amended: `repoRootCandidates()` lists the joins of
`RootPath/PathParts[0]` with ever shorter non-empty prefixes of the remaining
parts — from the full host+path down to `RootPath/PathParts[0]/PathParts[1]`,
not down to the bare host; `VCS()` returns the cache when set, otherwise
probes the candidates in this order and caches the first candidate at which
`findVCSBackend` detects a backend (returning no backend when none is
detected); once a backend has been cached the cached pair is returned
unchanged by any later call, with no re-probe. -/
theorem repoRootCandidates_and_VCS_cache (repo : LocalRepository) (fs : FS)
    (p0 : String) (rest : List String) (hparts : repo.PathParts = p0 :: rest) :
    repoRootCandidates repo = (List.range rest.length).map
      (fun i => goJoinList (goJoin2 repo.RootPath p0 :: rest.take (rest.length - i))) ∧
    (∀ b, repo.vcsBackend = some b → VCS fs repo = ((some b, RepoPath repo), repo)) ∧
    (repo.vcsBackend = none →
      ∀ l1 d l2, repoRootCandidates repo = l1 ++ d :: l2 →
        (∀ d' ∈ l1, findVCSBackend fs d' = none) →
        ∀ b, findVCSBackend fs d = some b →
          VCS fs repo =
            ((some b, RepoPath { repo with vcsBackend := some b, repoPath := d }),
             { repo with vcsBackend := some b, repoPath := d })) ∧
    (repo.vcsBackend = none →
      (∀ d ∈ repoRootCandidates repo, findVCSBackend fs d = none) →
      VCS fs repo = ((none, RepoPath repo), repo)) ∧
    (∀ res repo', VCS fs repo = (res, repo') → res.1.isSome = true →
      ∀ fs2, VCS fs2 repo' = (res, repo')) := by
  refine ⟨?_, ?_, ?_, ?_, ?_⟩
  · simp only [repoRootCandidates, hparts]
  · intro b hb
    simp [VCS, hb]
  · intro hnone l1 d l2 hsplit hl1 b hd
    have hprobe : probeCandidates fs (repoRootCandidates repo) = some (b, d) := by
      rw [hsplit]
      exact probeCandidates_first fs d l2 b hd l1 hl1
    simp [VCS, hnone, hprobe]
  · intro hnone hall
    have hprobe : probeCandidates fs (repoRootCandidates repo) = none :=
      probeCandidates_of_all_none fs _ hall
    simp [VCS, hnone, hprobe]
  · intro res repo' h hsome fs2
    have h2 : repo' = (VCS fs repo).2 := by rw [h]
    have h1 : res = (VCS fs repo).1 := by rw [h]
    rw [VCS_fst, ← h2] at h1
    have hvb : repo'.vcsBackend.isSome = true := by
      rw [h1] at hsome
      exact hsome
    rw [VCS_cached fs2 repo' hvb, ← h1]

/-- Claim C4 witness: on the empty filesystem the probe finds nothing and
`VCS()` reports no backend with the repository unchanged. -/
theorem repoRootCandidates_and_VCS_cache_witness :
    VCS fsEmpty repoGhq = ((none, RepoPath repoGhq), repoGhq) := by
  have h := repoRootCandidates_and_VCS_cache repoGhq fsEmpty "github.com" ["motemen", "ghq"] rfl
  exact h.2.2.2.1 rfl (by decide)

/-- Claim C1: the default marker list is sorted by descending length and
consists exactly of the registered backends' markers; for any
length-descending ordering of it, `findVCSBackend` returns the backend of
the first marker that exists; when the `.git/svn` marker exists the result
is never the plain git backend, and for a directory whose present markers
are among `.git` and `.git/svn` the result is the git-svn backend. -/
theorem findVCSBackend_longest_marker_first (l : List String) (markerExists : String → Bool)
    (hperm : l.Perm vcsContents)
    (hsorted : l.Pairwise (fun a b => b.length ≤ a.length))
    (hgitsvn : markerExists ".git/svn" = true) :
    List.Pairwise (fun a b => b.length ≤ a.length) vcsContents ∧
    (∀ m ∈ vcsContents, ∃ p ∈ vcsRegistry, m ∈ (backendOfKind p.2).Contents) ∧
    (∀ p ∈ vcsRegistry, ∀ m ∈ (backendOfKind p.2).Contents, m ∈ vcsContents) ∧
    findVCSBackendOn l markerExists = ((l.find? markerExists).bind vcsContentsMap) ∧
    findVCSBackendOn l markerExists ≠ some VCSKind.git ∧
    ((∀ d ∈ l, markerExists d = true → d = ".git" ∨ d = ".git/svn") →
      findVCSBackendOn l markerExists = some VCSKind.gitsvn) := by
  have hmem : ".git/svn" ∈ l := hperm.mem_iff.mpr (by decide)
  refine ⟨by decide, by decide, by decide, ?_, ?_, ?_⟩
  · cases h : l.find? markerExists <;> simp [findVCSBackendOn, h]
  · intro hcontra
    rcases hfind : l.find? markerExists with _ | d
    · simp [findVCSBackendOn, hfind] at hcontra
    · have hd : vcsContentsMap d = some VCSKind.git := by
        simpa [findVCSBackendOn, hfind] using hcontra
      have hdc : d ∈ vcsContents := hperm.mem_iff.mp (List.mem_of_find?_eq_some hfind)
      have hdg : d = ".git" := by
        simp only [vcsContents, List.mem_cons, List.not_mem_nil, or_false] at hdc
        rcases hdc with h|h|h|h|h|h|h|h <;> subst h <;>
          first | rfl | (exact absurd hd (by decide))
      subst hdg
      exact find?_ne_git markerExists hgitsvn l hsorted hmem hfind
  · intro honly
    have hfind := find?_gitsvn markerExists hgitsvn l hsorted hmem honly
    simp [findVCSBackendOn, hfind, vcsContentsMap]

/-- Claim C1 witness: on a directory carrying exactly the `.git` and
`.git/svn` markers, detection over the default marker list answers git-svn. -/
theorem findVCSBackend_longest_marker_first_witness :
    findVCSBackendOn vcsContents (fun d => d == ".git" || d == ".git/svn")
      = some VCSKind.gitsvn :=
  (findVCSBackend_longest_marker_first vcsContents
    (fun d => d == ".git" || d == ".git/svn")
    (List.Perm.refl _) (by decide) (by decide)).2.2.2.2.2 (by decide)

/-- Claim C5: the relative path `LocalRepositoryFromURL` derives depends only
on the URL's hostname and path (so deriving twice from the same URL yields
the same `RelPath`); a trailing `.git` of the joined hostname-plus-segments
path is stripped exactly once (appending `.git` back recovers the joined
path) and nothing is stripped otherwise; the independent strip of the final
`pathParts` segment rewrites exactly the last element, leaving the others
unchanged; and every repository `LocalRepositoryFromURL` returns — matched
or synthesized — carries exactly the derived `RelPath`. -/
theorem urlRelPath_strip_once (u v : GoURL) :
    (u.hostname = v.hostname → u.path = v.path → urlRelPath u = urlRelPath v) ∧
    (strEndsWith (goJoinList (urlPathParts u)) ".git" = true →
      urlRelPath u ++ ".git" = goJoinList (urlPathParts u)) ∧
    (strEndsWith (goJoinList (urlPathParts u)) ".git" = false →
      urlRelPath u = goJoinList (urlPathParts u)) ∧
    (urlPathPartsStripped u).dropLast = (urlPathParts u).dropLast ∧
    (urlPathPartsStripped u).getLast? =
      ((urlPathParts u).getLast?).map (fun s => trimSuffix s ".git") ∧
    (∀ fs roots repo, LocalRepositoryFromURL fs roots u = .ok repo →
      repo.RelPath = urlRelPath u) := by
  refine ⟨?_, ?_, ?_, ?_, ?_, ?_⟩
  · intro h1 h2
    unfold urlRelPath urlPathParts
    rw [h1, h2]
  · intro h
    exact trimSuffix_append _ _ h
  · intro h
    exact trimSuffix_of_no_suffix _ _ h
  · exact setLast_dropLast _ _
  · exact setLast_getLast _ _
  · intro fs roots repo h
    exact fromURL_relPath fs roots u repo h

/-- Claim C9: `LocalRepositoryFromFullPath` fails with the "no local
repository found" error — returned as a value — exactly when no resolved
(absolute) root is a string prefix of the full path; and when some root
matches, the first matching root becomes `RootPath`, with `RelPath` the
`filepath.Rel`-relative path from it (which always succeeds for an absolute
prefix root). -/
theorem fromFullPath_first_root (roots : List String) (fullPath : String)
    (backend : Option VCSKind)
    (habs : ∀ r ∈ roots, strStartsWith r "/" = true) :
    ((∀ r ∈ roots, strStartsWith fullPath r = false) ↔
      LocalRepositoryFromFullPath roots fullPath backend =
        .error ("no local repository found for: " ++ fullPath)) ∧
    (∀ pre r post, roots = pre ++ r :: post →
      (∀ r' ∈ pre, strStartsWith fullPath r' = false) →
      strStartsWith fullPath r = true →
      (goRel r fullPath).isSome = true ∧
      (∀ rel, goRel r fullPath = some rel →
        LocalRepositoryFromFullPath roots fullPath backend =
          .ok { FullPath := fullPath, RelPath := rel, RootPath := r,
                PathParts := splitOnChar '/' rel, repoPath := "",
                vcsBackend := backend })) := by
  constructor
  · constructor
    · intro h
      rw [LocalRepositoryFromFullPath, findRootRel_of_no_root fullPath roots h]
    · intro herr r hr
      cases hx : strStartsWith fullPath r
      · rfl
      · exfalso
        have hsome := findRootRel_isSome fullPath roots habs ⟨r, hr, hx⟩
        rcases hy : findRootRel fullPath roots with _ | ⟨root, rel⟩
        · rw [hy] at hsome; simp at hsome
        · rw [LocalRepositoryFromFullPath, hy] at herr
          simp at herr
  · intro pre r post hsplit hpre hr
    have hmem : r ∈ roots := by
      rw [hsplit]
      exact List.mem_append_right _ (List.mem_cons_self r post)
    refine ⟨goRel_isSome r fullPath (habs r hmem) hr, ?_⟩
    intro rel hrel
    rw [LocalRepositoryFromFullPath, hsplit,
      findRootRel_first fullPath r post rel hr hrel pre hpre]

/-- Claim C6: root resolution with the process-wide memo threaded
explicitly: a non-empty memo is returned unchanged with no recomputation;
with an empty memo the first non-empty source wins — the `GHQ_ROOT` path
list when the variable is non-empty, else a non-empty `ghq.root`
configuration value list, else the single default `<home>/.ghq` — and every
entry is normalized by `normalizeRoot` (clean, resolve symlinks when the
path exists, make absolute); a successful computation stores exactly the
result in the memo, and the next call returns that same list unchanged. -/
theorem localRepositoryRoots_precedence_memo (env : Env) (cache : List String) :
    (cache ≠ [] → localRepositoryRootsS env cache = (.ok cache, cache)) ∧
    (env.ghqRootEnv ≠ "" →
      localRepositoryRootsS env []
        = normalizeRootsLoop env [] (goSplitList env.ghqRootEnv)) ∧
    (∀ l, env.ghqRootEnv = "" → env.ghqRootConfig = .found l → l ≠ [] →
      localRepositoryRootsS env [] = normalizeRootsLoop env [] l) ∧
    (∀ home, env.ghqRootEnv = "" →
      (env.ghqRootConfig = .notFound ∨ env.ghqRootConfig = .found []) →
      env.userHomeDir = .ok home →
      localRepositoryRootsS env []
        = normalizeRootsLoop env [] [goJoin2 home ".ghq"]) ∧
    (∀ xs, (normalizeRootsLoop env [] xs).1 = mapExcept (normalizeRoot env) xs) ∧
    (∀ l, (localRepositoryRootsS env []).1 = .ok l →
      (localRepositoryRootsS env []).2 = l ∧
      localRepositoryRootsS env l = (.ok l, l)) := by
  refine ⟨?_, ?_, ?_, ?_, ?_, ?_⟩
  · intro h
    rw [localRepositoryRootsS, if_pos (List.isEmpty_eq_false.mpr h)]
  · intro henv
    have hs : rootsSource env = .ok (goSplitList env.ghqRootEnv) := by
      rw [rootsSource, if_pos henv]
    have hne := goSplitList_ne_nil env.ghqRootEnv henv
    have hw : rootsWithDefault env (goSplitList env.ghqRootEnv)
        = .ok (goSplitList env.ghqRootEnv) := by
      rw [rootsWithDefault, if_neg (by simp [List.isEmpty_eq_false.mpr hne])]
    rw [localRepositoryRootsS, if_neg (by simp)]
    rw [hs]
    dsimp only
    rw [hw]
  · intro l henv hconf hne
    have hs : rootsSource env = .ok l := by
      rw [rootsSource, if_neg (by simp [henv]), hconf]
    have hw : rootsWithDefault env l = .ok l := by
      rw [rootsWithDefault, if_neg (by simp [List.isEmpty_eq_false.mpr hne])]
    rw [localRepositoryRootsS, if_neg (by simp), hs]
    dsimp only
    rw [hw]
  · intro home henv hconf hhome
    have hs : rootsSource env = .ok [] := by
      rcases hconf with hc | hc <;> rw [rootsSource, if_neg (by simp [henv]), hc]
    have hw : rootsWithDefault env [] = .ok [goJoin2 home ".ghq"] := by
      rw [rootsWithDefault, if_pos (by simp), hhome]
      rfl
    rw [localRepositoryRootsS, if_neg (by simp), hs]
    dsimp only
    rw [hw]
  · intro xs
    rw [normalizeRootsLoop_fst env xs []]
    cases mapExcept (normalizeRoot env) xs <;> simp [Except.map]
  · intro l hok
    have hbody : localRepositoryRootsS env [] =
        match rootsSource env with
        | .error e => (.error e, [])
        | .ok l0 =>
          match rootsWithDefault env l0 with
          | .error e => (.error e, l0)
          | .ok l1 => normalizeRootsLoop env [] l1 := by
      rw [localRepositoryRootsS, if_neg (by simp)]
    rcases hs : rootsSource env with e | l0
    · rw [hbody, hs] at hok
      simp at hok
    · rcases hw : rootsWithDefault env l0 with e | l1
      · rw [hbody, hs] at hok
        dsimp only at hok
        rw [hw] at hok
        simp at hok
      · rw [hbody, hs] at hok
        dsimp only at hok
        rw [hw] at hok
        obtain ⟨hsnd, hlen⟩ := normalizeRootsLoop_ok env l1 [] l hok
        have hl1 := rootsWithDefault_ok_ne_nil env l0 l1 hw
        have hlne : l ≠ [] := by
          intro hle
          subst hle
          simp at hlen
          exact hl1 (List.length_eq_zero.mp hlen.symm)
        constructor
        · rw [hbody, hs]
          dsimp only
          rw [hw]
          exact hsnd
        · rw [localRepositoryRootsS, if_pos (List.isEmpty_eq_false.mpr hlne)]

/-- An environment with `GHQ_ROOT` set to two roots, no configured
`ghq.root`, and no existing paths. -/
def envTwoRoots : Env where
  ghqRootEnv := "/a:/b"
  ghqRootConfig := .notFound
  userHomeDir := .ok "/home/u"
  pathExists _ := false
  evalSymlinks _ := .error .notExist
  cwd := "/w"

/-- Claim C6 witness: a non-empty memo is returned unchanged, and from an
empty memo `GHQ_ROOT` wins and the result is memoized. -/
theorem localRepositoryRoots_precedence_memo_witness :
    localRepositoryRootsS envTwoRoots ["/x"] = (.ok ["/x"], ["/x"]) ∧
    localRepositoryRootsS envTwoRoots []
      = normalizeRootsLoop envTwoRoots [] (goSplitList "/a:/b") :=
  ⟨(localRepositoryRoots_precedence_memo envTwoRoots ["/x"]).1 (by simp),
   (localRepositoryRoots_precedence_memo envTwoRoots []).2.1 (by decide)⟩

/-- Claim C3: the walk aborts with `os.ErrPermission` — returning no result
list — as soon as it reaches a configured root that exists but has no bits
of mode `0444` set (earlier roots having been processed without error); a
root that does not exist is skipped without error (a walk over only absent
roots succeeds with no repositories); and traversal errors on non-root
entries are routed through the error callback, which swallows permission
errors so that those entries are simply omitted and the walk of the root
completes. -/
theorem walkLocalRepositories_permission_errors (fs : FS) :
    (∀ roots pre r post fi l, roots = pre ++ r :: post →
      walkRootsLoop fs roots pre = .ok l →
      fs.stat r = .ok fi → fi.mode &&& 0o444 = 0 →
      walkLocalRepositories fs roots = .error .permission) ∧
    (∀ roots : List String, (∀ r ∈ roots, fs.stat r = .error .notExist) →
      walkLocalRepositories fs roots = .ok []) ∧
    walkErrCb .permission = none ∧
    (∀ roots evs, (∀ e, WalkEvent.failure e ∈ evs → e = GoError.permission) →
      runWalkEvents roots fs evs = .ok (evs.filterMap (fun ev =>
        match ev with
        | .entry p fi => (walkFn roots fs p fi).2
        | .failure _ => none))) := by
  refine ⟨?_, ?_, rfl, ?_⟩
  · intro roots pre r post fi l hsplit hpre hstat hmode
    subst hsplit
    rw [walkLocalRepositories, walkRootsLoop_append, hpre]
    simp only [walkRootsLoop, hstat, if_pos hmode]
    rfl
  · intro roots hall
    have haux : ∀ rs : List String, (∀ r ∈ rs, fs.stat r = .error .notExist) →
        walkRootsLoop fs roots rs = .ok [] := by
      intro rs
      induction rs with
      | nil => intro _; rfl
      | cons r rest ih =>
        intro h
        have hr := h r (List.mem_cons_self r rest)
        simp only [walkRootsLoop, hr, if_pos rfl]
        exact ih (fun r' hr' => h r' (List.mem_cons_of_mem r hr'))
    exact haux roots hall
  · intro roots evs
    induction evs with
    | nil => intro _; rfl
    | cons ev rest ih =>
      intro h
      have ihr := ih (fun e he => h e (List.mem_cons_of_mem _ he))
      rcases ev with ⟨p, fi⟩ | e
      · simp only [runWalkEvents, ihr, List.filterMap_cons]
        cases (walkFn roots fs p fi).2 <;> simp
      · have he : e = GoError.permission := h e (List.mem_cons_self _ _)
        subst he
        simp only [runWalkEvents, walkErrCb, if_pos rfl, List.filterMap_cons]
        exact ihr

/-- A root that exists with permission bits all clear. -/
def fsUnreadableRoot : FS where
  stat p := if p = "/unreadable" then
      .ok { isDir := true, isSymlink := false, mode := 0 }
    else .error .notExist
  evalSymlinks _ := .error .notExist
  events _ := []

/-- Claim C3 witness: a single existing root of mode `0` makes the whole
walk fail with the permission error. -/
theorem walkLocalRepositories_permission_errors_witness :
    walkLocalRepositories fsUnreadableRoot ["/unreadable"] = .error .permission :=
  (walkLocalRepositories_permission_errors fsUnreadableRoot).1
    ["/unreadable"] [] "/unreadable" []
    { isDir := true, isSymlink := false, mode := 0 } [] rfl rfl rfl rfl

/-- Claim C2: for a directory entry the walker visits under a configured
(absolute) root, `walkFn` prunes the subtree (returns `filepath.SkipDir`)
exactly when a backend is detected at the entry and the entry was not
reached as a symlink; a detected working copy reached through a symlink is
still reported to the callback but descent continues, and with no detected
backend the entry is neither reported nor pruned. -/
theorem walkFn_prune_unless_symlink (roots : List String) (fs : FS) (fpath : String)
    (fi : FileInfo)
    (habs : ∀ r ∈ roots, strStartsWith r "/" = true)
    (hunder : ∃ r ∈ roots, strStartsWith fpath r = true) :
    (findVCSBackend fs fpath = none →
      walkFn roots fs fpath fi = (WalkSignal.next, none)) ∧
    (∀ b, findVCSBackend fs fpath = some b → fi.isSymlink = false → fi.isDir = true →
      (walkFn roots fs fpath fi).1 = WalkSignal.skipDir ∧
      (walkFn roots fs fpath fi).2.isSome = true) ∧
    (∀ b realpath fi2, findVCSBackend fs fpath = some b → fi.isSymlink = true →
      fs.evalSymlinks fpath = .ok realpath → fs.stat realpath = .ok fi2 →
      fi2.isDir = true →
      (walkFn roots fs fpath fi).1 = WalkSignal.next ∧
      (walkFn roots fs fpath fi).2.isSome = true) := by
  have hok : ∀ b, ∃ repo, LocalRepositoryFromFullPath roots fpath (some b) = .ok repo := by
    intro b
    have hsome := findRootRel_isSome fpath roots habs hunder
    rcases hy : findRootRel fpath roots with _ | ⟨root, rel⟩
    · rw [hy] at hsome; simp at hsome
    · exact ⟨_, by rw [LocalRepositoryFromFullPath, hy]⟩
  refine ⟨?_, ?_, ?_⟩
  · intro hnone
    rcases hsym : fi.isSymlink
    · rcases hd : fi.isDir <;> simp [walkFn, hsym, hnone, hd]
    · rcases he : fs.evalSymlinks fpath with _ | rp
      · simp [walkFn, hsym, he]
      · rcases hs : fs.stat rp with _ | fi2
        · simp [walkFn, hsym, he, hs]
        · rcases hd : fi2.isDir <;> simp [walkFn, hsym, he, hs, hd, hnone]
  · intro b hb hsym hdir
    obtain ⟨repo, hrepo⟩ := hok b
    simp [walkFn, hsym, hdir, hb, hrepo]
  · intro b realpath fi2 hb hsym he hs hdir
    obtain ⟨repo, hrepo⟩ := hok b
    simp [walkFn, hsym, he, hs, hdir, hb, hrepo]

/-- Claim C2 witness: a non-symlink directory entry with a `.git` marker is
reported and pruned. -/
theorem walkFn_prune_unless_symlink_witness :
    (walkFn ["/r"] { stat := fun p => if p = "/r/h/o/n/.git" then
                       .ok { isDir := true, isSymlink := false, mode := 0o755 }
                     else .error .notExist,
                     evalSymlinks := fun _ => .error .notExist,
                     events := fun _ => [] }
       "/r/h/o/n" { isDir := true, isSymlink := false, mode := 0o755 }).1
        = WalkSignal.skipDir ∧
    (walkFn ["/r"] { stat := fun p => if p = "/r/h/o/n/.git" then
                       .ok { isDir := true, isSymlink := false, mode := 0o755 }
                     else .error .notExist,
                     evalSymlinks := fun _ => .error .notExist,
                     events := fun _ => [] }
       "/r/h/o/n" { isDir := true, isSymlink := false, mode := 0o755 }).2.isSome = true := by
  exact (walkFn_prune_unless_symlink ["/r"] _ "/r/h/o/n" _
    (by decide) ⟨"/r", by simp, by decide⟩).2.1 VCSKind.git (by decide) rfl rfl

/-- Claim C9 witness: under the single root `/r`, the full path of a clone
resolves to that root with the expected relative path and parts. -/
theorem fromFullPath_first_root_witness :
    LocalRepositoryFromFullPath ["/r"] "/r/github.com/motemen/ghq" (some VCSKind.git)
      = .ok { FullPath := "/r/github.com/motemen/ghq",
              RelPath := "github.com/motemen/ghq",
              RootPath := "/r", PathParts := ["github.com", "motemen", "ghq"],
              repoPath := "", vcsBackend := some VCSKind.git } := by
  have h := (fromFullPath_first_root ["/r"] "/r/github.com/motemen/ghq" (some VCSKind.git)
    (by decide)).2 [] "/r" [] rfl (by simp) (by decide)
  exact h.2 "github.com/motemen/ghq" (by decide)

/-- Claim C5 witness at `https://github.com/motemen/ghq.git`: the joined path
ends in `.git` and the strip removes it exactly once. -/
theorem urlRelPath_strip_once_witness :
    urlRelPath { hostname := "github.com", path := "/motemen/ghq.git",
                 str := "https://github.com/motemen/ghq.git" } ++ ".git"
      = goJoinList (urlPathParts { hostname := "github.com", path := "/motemen/ghq.git",
                                   str := "https://github.com/motemen/ghq.git" }) :=
  (urlRelPath_strip_once
    { hostname := "github.com", path := "/motemen/ghq.git",
      str := "https://github.com/motemen/ghq.git" }
    { hostname := "github.com", path := "/motemen/ghq.git",
      str := "https://github.com/motemen/ghq.git" }).2.1 (by decide)

end Ghq
